import Mathlib

/-!
Verification of the ndlocrlite-web OCR pipeline.

This file gives a shallow embedding of the TypeScript source:
layout-detector postprocessing with greedy non-maximum suppression
(src/worker/layout-detector.ts), PARSeq greedy decoding
(src/worker/text-recognizer.ts), the model loader with its versioned
IndexedDB cache (src/worker/model-loader.ts), the cascade recognizer
selection (src/worker/ocr.worker.ts and the recognition worker), and the
worker-pool fan-out/aggregation of the recognition phase
(src/hooks/useOCRWorker.ts).  JavaScript numbers are modelled as
rationals, pixel coordinates after Math.round as integers, and the
asynchronous worker pool as explicit lists of outcomes and arrival
events.
-/

namespace NDLOCRLiteWeb

/-- JavaScript Math.round: round half toward positive infinity. -/
def jsRound (q : ℚ) : ℤ := ⌊q + 1/2⌋

/-- `TextRegion` from src/types/ocr.ts.  `charCountCategory` is optional in
TypeScript; layout postprocessing always writes a numeric value into it, so
it is a plain rational here. -/
structure TextRegionM where
  x : ℚ
  y : ℚ
  width : ℚ
  height : ℚ
  confidence : ℚ
  classId : ℤ
  charCountCategory : ℚ
deriving DecidableEq

/-- Intersection area `inter = ix * iy` computed by `LayoutDetector.iou`
(src/worker/layout-detector.ts lines 241-243). -/
def iouInter (a b : TextRegionM) : ℚ :=
  max 0 (min (a.x + a.width) (b.x + b.width) - max a.x b.x) *
    max 0 (min (a.y + a.height) (b.y + b.height) - max a.y b.y)

/-- Denominator of the IoU quotient (union area). -/
def iouDenom (a b : TextRegionM) : ℚ :=
  a.width * a.height + b.width * b.height - iouInter a b

/-- Pairwise Intersection-over-Union, from `LayoutDetector.iou`
(src/worker/layout-detector.ts lines 238-246), including the guard that
returns 0 before the division whenever the intersection area is 0. -/
def iou (a b : TextRegionM) : ℚ :=
  if iouInter a b = 0 then 0 else iouInter a b / iouDenom a b

/-- Stable insertion of a detection into a list sorted by descending
confidence: the new element goes in front of the first element whose
confidence is not larger, which is how a stable JavaScript
`sort((a, b) => b.confidence - a.confidence)` orders elements. -/
def insertDesc (d : TextRegionM) : List TextRegionM → List TextRegionM
  | [] => [d]
  | x :: xs => if x.confidence ≤ d.confidence then d :: x :: xs else x :: insertDesc d xs

/-- Stable sort by descending confidence, modelling
`[...detections].sort((a, b) => b.confidence - a.confidence)`. -/
def sortDesc (l : List TextRegionM) : List TextRegionM :=
  l.foldr insertDesc []

/-- The greedy keep loop of `LayoutDetector.nms`
(src/worker/layout-detector.ts lines 229-236): a detection is appended to
`keep` exactly when its IoU with every already-kept detection is below the
threshold 0.5. -/
def nmsLoop : List TextRegionM → List TextRegionM → List TextRegionM
  | keep, [] => keep
  | keep, d :: rest =>
    if keep.all (fun k => iou k d < 1/2) then nmsLoop (keep ++ [d]) rest
    else nmsLoop keep rest

/-- Greedy non-maximum suppression, from `LayoutDetector.nms`. -/
def nms (detections : List TextRegionM) : List TextRegionM :=
  nmsLoop [] (sortDesc detections)

theorem iouInter_nonneg (a b : TextRegionM) : 0 ≤ iouInter a b :=
  mul_nonneg (le_max_left _ _) (le_max_left _ _)

theorem iouInter_facts (a b : TextRegionM) (h : iouInter a b ≠ 0) :
    0 < iouInter a b ∧ iouInter a b ≤ a.width * a.height ∧
      iouInter a b ≤ b.width * b.height := by
  have hsxa : min (a.x + a.width) (b.x + b.width) - max a.x b.x ≤ a.width := by
    have h1 : min (a.x + a.width) (b.x + b.width) ≤ a.x + a.width := min_le_left _ _
    have h2 : a.x ≤ max a.x b.x := le_max_left _ _
    linarith
  have hsxb : min (a.x + a.width) (b.x + b.width) - max a.x b.x ≤ b.width := by
    have h1 : min (a.x + a.width) (b.x + b.width) ≤ b.x + b.width := min_le_right _ _
    have h2 : b.x ≤ max a.x b.x := le_max_right _ _
    linarith
  have hsya : min (a.y + a.height) (b.y + b.height) - max a.y b.y ≤ a.height := by
    have h1 : min (a.y + a.height) (b.y + b.height) ≤ a.y + a.height := min_le_left _ _
    have h2 : a.y ≤ max a.y b.y := le_max_left _ _
    linarith
  have hsyb : min (a.y + a.height) (b.y + b.height) - max a.y b.y ≤ b.height := by
    have h1 : min (a.y + a.height) (b.y + b.height) ≤ b.y + b.height := min_le_right _ _
    have h2 : b.y ≤ max a.y b.y := le_max_right _ _
    linarith
  have hx0 : (0:ℚ) ≤ max 0 (min (a.x + a.width) (b.x + b.width) - max a.x b.x) :=
    le_max_left _ _
  have hy0 : (0:ℚ) ≤ max 0 (min (a.y + a.height) (b.y + b.height) - max a.y b.y) :=
    le_max_left _ _
  have hxne : max 0 (min (a.x + a.width) (b.x + b.width) - max a.x b.x) ≠ 0 := by
    intro hx
    exact h (by unfold iouInter; rw [hx]; ring)
  have hyne : max 0 (min (a.y + a.height) (b.y + b.height) - max a.y b.y) ≠ 0 := by
    intro hy
    exact h (by unfold iouInter; rw [hy]; ring)
  have hxpos := lt_of_le_of_ne hx0 (Ne.symm hxne)
  have hypos := lt_of_le_of_ne hy0 (Ne.symm hyne)
  have hxa : max 0 (min (a.x + a.width) (b.x + b.width) - max a.x b.x) ≤ a.width := by
    rcases max_cases (0:ℚ) (min (a.x + a.width) (b.x + b.width) - max a.x b.x) with
      ⟨he, _⟩ | ⟨he, _⟩
    · rw [he] at hxne; exact absurd rfl hxne
    · rw [he]; exact hsxa
  have hxb : max 0 (min (a.x + a.width) (b.x + b.width) - max a.x b.x) ≤ b.width := by
    rcases max_cases (0:ℚ) (min (a.x + a.width) (b.x + b.width) - max a.x b.x) with
      ⟨he, _⟩ | ⟨he, _⟩
    · rw [he] at hxne; exact absurd rfl hxne
    · rw [he]; exact hsxb
  have hya : max 0 (min (a.y + a.height) (b.y + b.height) - max a.y b.y) ≤ a.height := by
    rcases max_cases (0:ℚ) (min (a.y + a.height) (b.y + b.height) - max a.y b.y) with
      ⟨he, _⟩ | ⟨he, _⟩
    · rw [he] at hyne; exact absurd rfl hyne
    · rw [he]; exact hsya
  have hyb : max 0 (min (a.y + a.height) (b.y + b.height) - max a.y b.y) ≤ b.height := by
    rcases max_cases (0:ℚ) (min (a.y + a.height) (b.y + b.height) - max a.y b.y) with
      ⟨he, _⟩ | ⟨he, _⟩
    · rw [he] at hyne; exact absurd rfl hyne
    · rw [he]; exact hsyb
  refine ⟨mul_pos hxpos hypos, ?_, ?_⟩
  · exact mul_le_mul hxa hya hy0 (le_trans hxpos.le hxa)
  · exact mul_le_mul hxb hyb hy0 (le_trans hxpos.le hxb)

theorem iouDenom_pos (a b : TextRegionM) (h : iouInter a b ≠ 0) :
    0 < iouDenom a b := by
  obtain ⟨hpos, ha, hb⟩ := iouInter_facts a b h
  unfold iouDenom
  linarith

theorem iouInter_le_iouDenom (a b : TextRegionM) (h : iouInter a b ≠ 0) :
    iouInter a b ≤ iouDenom a b := by
  obtain ⟨hpos, ha, hb⟩ := iouInter_facts a b h
  unfold iouDenom
  rcases le_total (a.width * a.height) (b.width * b.height) with hc | hc <;> linarith

theorem iou_nonneg (a b : TextRegionM) : 0 ≤ iou a b := by
  unfold iou
  split
  · exact le_refl 0
  · rename_i h
    exact div_nonneg (iouInter_nonneg a b) (iouDenom_pos a b h).le

theorem iou_le_one (a b : TextRegionM) : iou a b ≤ 1 := by
  unfold iou
  split
  · norm_num
  · rename_i h
    exact (div_le_one (iouDenom_pos a b h)).mpr (iouInter_le_iouDenom a b h)

/-- Claim C10: the pairwise IoU function used by suppression is total on
every pair of bounding boxes: when the intersection area is zero it returns
0 before the division, when it is nonzero the denominator is nonzero (so no
division by zero occurs), and for every pair of boxes with width ≥ 1 and
height ≥ 1 the returned value lies in the interval [0, 1]. -/
theorem c10_iou_total_and_bounded (a b : TextRegionM) :
    (iouInter a b = 0 → iou a b = 0) ∧
    (iouInter a b ≠ 0 → iouDenom a b ≠ 0) ∧
    (1 ≤ a.width → 1 ≤ a.height → 1 ≤ b.width → 1 ≤ b.height →
      0 ≤ iou a b ∧ iou a b ≤ 1) :=
  ⟨fun h => by unfold iou; simp [h],
   fun h => (iouDenom_pos a b h).ne.symm,
   fun _ _ _ _ => ⟨iou_nonneg a b, iou_le_one a b⟩⟩

/-- Two concrete overlapping boxes used to witness `c10_iou_total_and_bounded`. -/
def boxA : TextRegionM := ⟨0, 0, 4, 4, 9/10, 1, 1⟩

def boxB : TextRegionM := ⟨2, 2, 4, 4, 8/10, 1, 1⟩

theorem c10_iou_total_and_bounded_witness :
    iouInter boxA boxB ≠ 0 ∧ iouDenom boxA boxB ≠ 0 ∧
      (1 ≤ boxA.width ∧ 1 ≤ boxA.height ∧ 1 ≤ boxB.width ∧ 1 ≤ boxB.height) ∧
      0 ≤ iou boxA boxB ∧ iou boxA boxB ≤ 1 := by
  have hI : iouInter boxA boxB ≠ 0 := by
    norm_num [iouInter, boxA, boxB, min_def, max_def]
  refine ⟨hI, (c10_iou_total_and_bounded boxA boxB).2.1 hI, ⟨?_, ?_, ?_, ?_⟩,
    ((c10_iou_total_and_bounded boxA boxB).2.2 ?_ ?_ ?_ ?_).1,
    ((c10_iou_total_and_bounded boxA boxB).2.2 ?_ ?_ ?_ ?_).2⟩ <;>
  norm_num [boxA, boxB]

theorem mem_insertDesc {y d : TextRegionM} {l : List TextRegionM} :
    y ∈ insertDesc d l ↔ y = d ∨ y ∈ l := by
  induction l with
  | nil => simp [insertDesc]
  | cons x xs ih =>
    unfold insertDesc
    split
    · simp
    · simp only [List.mem_cons, ih]
      tauto

theorem mem_sortDesc {y : TextRegionM} {l : List TextRegionM} :
    y ∈ sortDesc l ↔ y ∈ l := by
  induction l with
  | nil => simp [sortDesc]
  | cons x xs ih =>
    show y ∈ insertDesc x (sortDesc xs) ↔ _
    rw [mem_insertDesc]
    simp [ih]

theorem pairwise_insertDesc {d : TextRegionM} {l : List TextRegionM}
    (h : List.Pairwise (fun a b => b.confidence ≤ a.confidence) l) :
    List.Pairwise (fun a b => b.confidence ≤ a.confidence) (insertDesc d l) := by
  induction l with
  | nil => simp [insertDesc]
  | cons x xs ih =>
    rw [List.pairwise_cons] at h
    unfold insertDesc
    split
    · rename_i hc
      rw [List.pairwise_cons]
      refine ⟨?_, List.Pairwise.cons h.1 h.2⟩
      intro b hb
      rcases List.mem_cons.mp hb with hb | hb
      · exact hb ▸ hc
      · exact le_trans (h.1 b hb) hc
    · rename_i hc
      push_neg at hc
      rw [List.pairwise_cons]
      refine ⟨?_, ih h.2⟩
      intro b hb
      rcases mem_insertDesc.mp hb with hb | hb
      · exact hb ▸ hc.le
      · exact h.1 b hb

theorem pairwise_sortDesc (l : List TextRegionM) :
    List.Pairwise (fun a b => b.confidence ≤ a.confidence) (sortDesc l) := by
  induction l with
  | nil => simp [sortDesc]
  | cons x xs ih => exact pairwise_insertDesc ih

theorem sortDesc_of_pairwise {l : List TextRegionM}
    (h : List.Pairwise (fun a b => b.confidence ≤ a.confidence) l) :
    sortDesc l = l := by
  induction l with
  | nil => rfl
  | cons x xs ih =>
    rw [List.pairwise_cons] at h
    show insertDesc x (sortDesc xs) = x :: xs
    rw [ih h.2]
    cases xs with
    | nil => rfl
    | cons y ys =>
      unfold insertDesc
      rw [if_pos (h.1 y (List.mem_cons_self _ _))]

theorem mem_nmsLoop {y : TextRegionM} :
    ∀ {rest keep : List TextRegionM}, y ∈ nmsLoop keep rest → y ∈ keep ∨ y ∈ rest := by
  intro rest
  induction rest with
  | nil => intro keep h; exact Or.inl h
  | cons d ds ih =>
    intro keep h
    unfold nmsLoop at h
    split at h
    · rcases ih h with hk | hr
      · rcases List.mem_append.mp hk with hk | hk
        · exact Or.inl hk
        · exact Or.inr (List.mem_cons.mpr (Or.inl (List.mem_singleton.mp hk)))
      · exact Or.inr (List.mem_cons_of_mem _ hr)
    · rcases ih h with hk | hr
      · exact Or.inl hk
      · exact Or.inr (List.mem_cons_of_mem _ hr)

theorem mem_nms {y : TextRegionM} {l : List TextRegionM} (h : y ∈ nms l) : y ∈ l := by
  rcases mem_nmsLoop h with hk | hr
  · exact absurd hk (List.not_mem_nil _)
  · exact mem_sortDesc.mp hr

/-- The kept detections are pairwise separated: every pair in the output of
the greedy loop has IoU below the threshold. -/
theorem nmsLoop_pairwise_sep :
    ∀ {rest keep : List TextRegionM},
      List.Pairwise (fun a b => iou a b < 1/2) keep →
      List.Pairwise (fun a b => iou a b < 1/2) (nmsLoop keep rest) := by
  intro rest
  induction rest with
  | nil => intro keep h; exact h
  | cons d ds ih =>
    intro keep h
    unfold nmsLoop
    split
    · rename_i hall
      refine ih ?_
      rw [List.pairwise_append]
      refine ⟨h, List.pairwise_singleton _ _, ?_⟩
      intro a ha b hb
      rw [List.mem_singleton] at hb
      subst hb
      have := List.all_eq_true.mp hall a ha
      exact of_decide_eq_true this
    · exact ih h

theorem nmsLoop_pairwise_conf :
    ∀ {rest keep : List TextRegionM},
      List.Pairwise (fun a b => b.confidence ≤ a.confidence) keep →
      List.Pairwise (fun a b => b.confidence ≤ a.confidence) rest →
      (∀ k ∈ keep, ∀ r ∈ rest, r.confidence ≤ k.confidence) →
      List.Pairwise (fun a b => b.confidence ≤ a.confidence) (nmsLoop keep rest) := by
  intro rest
  induction rest with
  | nil => intro keep hk _ _; exact hk
  | cons d ds ih =>
    intro keep hk hr hcross
    rw [List.pairwise_cons] at hr
    unfold nmsLoop
    split
    · refine ih ?_ hr.2 ?_
      · rw [List.pairwise_append]
        refine ⟨hk, List.pairwise_singleton _ _, ?_⟩
        intro a ha b hb
        rw [List.mem_singleton] at hb
        subst hb
        exact hcross a ha _ (List.mem_cons_self _ _)
      · intro k hkmem r hrmem
        rcases List.mem_append.mp hkmem with hkm | hkm
        · exact hcross k hkm r (List.mem_cons_of_mem _ hrmem)
        · rw [List.mem_singleton] at hkm
          subst hkm
          exact hr.1 r hrmem
    · exact ih hk hr.2 fun k hkm r hrm => hcross k hkm r (List.mem_cons_of_mem _ hrm)

/-- On a pairwise-separated input the greedy loop keeps everything. -/
theorem nmsLoop_of_pairwise_sep :
    ∀ {rest keep : List TextRegionM},
      List.Pairwise (fun a b => iou a b < 1/2) rest →
      (∀ k ∈ keep, ∀ d ∈ rest, iou k d < 1/2) →
      nmsLoop keep rest = keep ++ rest := by
  intro rest
  induction rest with
  | nil => intro keep _ _; simp [nmsLoop]
  | cons d ds ih =>
    intro keep hsep hcross
    rw [List.pairwise_cons] at hsep
    unfold nmsLoop
    rw [if_pos]
    · rw [ih hsep.2 ?_]
      · simp
      · intro k hk r hr
        rcases List.mem_append.mp hk with hk | hk
        · exact hcross k hk r (List.mem_cons_of_mem _ hr)
        · rw [List.mem_singleton] at hk
          subst hk
          exact hsep.1 r hr
    · rw [List.all_eq_true]
      intro k hk
      exact decide_eq_true (hcross k hk _ (List.mem_cons_self _ _))

/-- Claim C3: greedy non-maximum suppression (sort by descending confidence,
keep a detection exactly when its IoU with every already-kept detection is
below 0.5) is idempotent: `nms (nms d) = nms d` for every detection list. -/
theorem c3_nms_idempotent (detections : List TextRegionM) :
    nms (nms detections) = nms detections := by
  have hconf : List.Pairwise (fun a b => b.confidence ≤ a.confidence) (nms detections) := by
    refine nmsLoop_pairwise_conf List.Pairwise.nil (pairwise_sortDesc detections) ?_
    intro k hk
    exact absurd hk (List.not_mem_nil _)
  have hsep : List.Pairwise (fun a b => iou a b < 1/2) (nms detections) :=
    nmsLoop_pairwise_sep List.Pairwise.nil
  show nmsLoop [] (sortDesc (nms detections)) = nms detections
  rw [sortDesc_of_pairwise hconf]
  rw [nmsLoop_of_pairwise_sep hsep ?_]
  · simp
  · intro k hk
    exact absurd hk (List.not_mem_nil _)

/-- Line class ids from src/worker/layout-detector.ts line 19 (0-indexed:
line_main, line_caption, line_ad, line_note, line_note_tochu, line_title). -/
def LINE_CLASS_IDS : List ℤ := [1, 2, 3, 4, 5, 16]

/-- The four parallel model outputs consumed by
`LayoutDetector.postprocessOutput`: class ids (1-indexed), a flat bbox
array laid out as `[x1, y1, x2, y2]` per detection, scores, and the
optional char-count categories. -/
structure DetOutput where
  classIds : List ℤ
  bboxes : List ℚ
  scores : List ℚ
  charCounts : Option (List ℚ)

/-- The preprocessing metadata used by postprocessing.  The model input
size is fixed at 800 × 800 (src/worker/layout-detector.ts line 35), so only
the original image size and the padded square size `maxWH` are needed. -/
structure DetMetadata where
  originalWidth : ℤ
  originalHeight : ℤ
  maxWH : ℚ

/-- One iteration of the detection loop of
`LayoutDetector.postprocessOutput` (src/worker/layout-detector.ts lines
180-220): confidence threshold 0.3, line-class filter, scaling by
`maxWH / 800`, 2 % vertical expansion, rounding, clamping to the original
image bounds, and the 10 × 10 minimum size filter. -/
def detectionAt (out : DetOutput) (md : DetMetadata) (i : ℕ) : Option TextRegionM :=
  let scaleX : ℚ := md.maxWH / 800
  let scaleY : ℚ := md.maxWH / 800
  let score := out.scores.getD i 0
  if score < 3/10 then none
  else
    let classId := out.classIds.getD i 0 - 1
    if classId ∉ LINE_CLASS_IDS then none
    else
      let x1 := out.bboxes.getD (i * 4) 0 * scaleX
      let y1 := out.bboxes.getD (i * 4 + 1) 0 * scaleY
      let x2 := out.bboxes.getD (i * 4 + 2) 0 * scaleX
      let y2 := out.bboxes.getD (i * 4 + 3) 0 * scaleY
      let boxHeight := y2 - y1
      let deltaH := boxHeight * (2 / 100)
      let finalX1 := max 0 (jsRound x1)
      let finalY1 := max 0 (jsRound (y1 - deltaH))
      let finalX2 := min md.originalWidth (jsRound x2)
      let finalY2 := min md.originalHeight (jsRound (y2 + deltaH))
      let width := finalX2 - finalX1
      let height := finalY2 - finalY1
      if width < 10 ∨ height < 10 then none
      else
        let cat : ℚ := match out.charCounts with
          | some l => l.getD i 0
          | none => 100
        some ⟨(finalX1 : ℚ), (finalY1 : ℚ), (width : ℚ), (height : ℚ), score, classId, cat⟩

/-- `LayoutDetector.postprocessOutput`: run the detection loop over all
`numDetections = scores.length` indices, then apply NMS. -/
def postprocessOutput (out : DetOutput) (md : DetMetadata) : List TextRegionM :=
  nms ((List.range out.scores.length).filterMap (detectionAt out md))

theorem clampAdd_le (W A B : ℤ) : (0 ⊔ A) + (W ⊓ B - (0 ⊔ A)) ≤ W := by
  have h := min_le_left W B
  linarith

/-- Claim C4: every TextRegion returned by layout-detection postprocessing
has confidence ≥ 0.3, width ≥ 10, height ≥ 10, x ≥ 0, y ≥ 0,
x + width ≤ original image width and y + height ≤ original image height
(the box is expanded vertically by 2 % of its height on both top and
bottom before clamping to the original image bounds). -/
theorem c4_postprocess_region_bounds (out : DetOutput) (md : DetMetadata)
    (r : TextRegionM) (hr : r ∈ postprocessOutput out md) :
    3/10 ≤ r.confidence ∧ 10 ≤ r.width ∧ 10 ≤ r.height ∧ 0 ≤ r.x ∧ 0 ≤ r.y ∧
      r.x + r.width ≤ (md.originalWidth : ℚ) ∧
      r.y + r.height ≤ (md.originalHeight : ℚ) := by
  have hmem := mem_nms hr
  obtain ⟨i, _, hd⟩ := List.mem_filterMap.mp hmem
  simp only [detectionAt] at hd
  split at hd
  · exact absurd hd (by simp)
  split at hd
  · exact absurd hd (by simp)
  split at hd
  · exact absurd hd (by simp)
  rename_i hscore hclass hsize
  rw [Option.some.injEq] at hd
  subst hd
  push_neg at hscore hsize
  simp only
  refine ⟨hscore, ?_, ?_, ?_, ?_, ?_, ?_⟩
  · exact_mod_cast hsize.1
  · exact_mod_cast hsize.2
  · exact_mod_cast le_max_left 0 _
  · exact_mod_cast le_max_left 0 _
  · exact_mod_cast clampAdd_le md.originalWidth _ _
  · exact_mod_cast clampAdd_le md.originalHeight _ _

/-- A concrete detector output with a single surviving detection. -/
def detOut4 : DetOutput := ⟨[2], [40, 40, 200, 200], [1/2], none⟩

def detMd4 : DetMetadata := ⟨100, 200, 200⟩

def region4 : TextRegionM := ⟨10, 9, 40, 42, 1/2, 1, 100⟩

theorem detOut4_eval : postprocessOutput detOut4 detMd4 = [region4] := by
  have hrange : List.range (detOut4.scores.length) = [0] := by decide
  show nms ((List.range detOut4.scores.length).filterMap (detectionAt detOut4 detMd4)) = _
  rw [hrange]
  have hdet : detectionAt detOut4 detMd4 0 = some region4 := by
    norm_num [detectionAt, detOut4, detMd4, jsRound, LINE_CLASS_IDS, region4,
      min_def, max_def]
  rw [List.filterMap_cons, hdet]
  simp [nms, sortDesc, insertDesc, nmsLoop]

theorem c4_postprocess_region_bounds_witness :
    region4 ∈ postprocessOutput detOut4 detMd4 ∧
      3/10 ≤ region4.confidence ∧ 10 ≤ region4.width ∧ 10 ≤ region4.height ∧
      0 ≤ region4.x ∧ 0 ≤ region4.y ∧
      region4.x + region4.width ≤ (detMd4.originalWidth : ℚ) ∧
      region4.y + region4.height ≤ (detMd4.originalHeight : ℚ) := by
  have hmem : region4 ∈ postprocessOutput detOut4 detMd4 := by
    rw [detOut4_eval]
    exact List.mem_singleton.mpr rfl
  exact ⟨hmem, c4_postprocess_region_bounds detOut4 detMd4 region4 hmem⟩

/-- Amended claim C5: when the detector model does not provide the
charCountCategory output, every TextRegion produced by layout-detection
postprocessing has charCountCategory equal to 100 (the sentinel routed to
the largest-capacity recognizer), not 1; in particular charCountCategory
does not always lie in {1, 2, 3}. -/
theorem c5_default_category_is_100 (out : DetOutput) (md : DetMetadata)
    (hnone : out.charCounts = none) (r : TextRegionM)
    (hr : r ∈ postprocessOutput out md) : r.charCountCategory = 100 := by
  have hmem := mem_nms hr
  obtain ⟨i, _, hd⟩ := List.mem_filterMap.mp hmem
  simp only [detectionAt, hnone] at hd
  split at hd
  · exact absurd hd (by simp)
  split at hd
  · exact absurd hd (by simp)
  split at hd
  · exact absurd hd (by simp)
  rw [Option.some.injEq] at hd
  subst hd
  rfl

/-- A concrete detector output (without the charCounts output tensor) whose
surviving detection therefore carries category 100. -/
def detOut5 : DetOutput := ⟨[3], [80, 80, 400, 400], [2/3], none⟩

def detMd5 : DetMetadata := ⟨300, 400, 400⟩

def region5 : TextRegionM := ⟨40, 37, 160, 166, 2/3, 2, 100⟩

theorem detOut5_eval : postprocessOutput detOut5 detMd5 = [region5] := by
  have hrange : List.range (detOut5.scores.length) = [0] := by decide
  show nms ((List.range detOut5.scores.length).filterMap (detectionAt detOut5 detMd5)) = _
  rw [hrange]
  have hdet : detectionAt detOut5 detMd5 0 = some region5 := by
    norm_num [detectionAt, detOut5, detMd5, jsRound, LINE_CLASS_IDS, region5,
      min_def, max_def]
  rw [List.filterMap_cons, hdet]
  simp [nms, sortDesc, insertDesc, nmsLoop]

/-- Counterexample to claim C5 as stated: with the charCountCategory model
output absent, postprocessing emits a region whose charCountCategory is
100 — not 1, and not in {1, 2, 3}. -/
theorem c5_default_category_counterexample :
    detOut5.charCounts = none ∧
      postprocessOutput detOut5 detMd5 = [region5] ∧
      region5.charCountCategory = 100 ∧
      region5.charCountCategory ≠ 1 ∧
      region5.charCountCategory ∉ ([1, 2, 3] : List ℚ) :=
  ⟨rfl, detOut5_eval, rfl, by norm_num [region5], by norm_num [region5]⟩

theorem c5_default_category_is_100_witness :
    detOut5.charCounts = none ∧ region5 ∈ postprocessOutput detOut5 detMd5 ∧
      region5.charCountCategory = 100 := by
  have hmem : region5 ∈ postprocessOutput detOut5 detMd5 := by
    rw [detOut5_eval]
    exact List.mem_singleton.mpr rfl
  exact ⟨rfl, hmem, c5_default_category_is_100 detOut5 detMd5 rfl region5 hmem⟩

/-- `Math.max(...scores)` over one row of logits (0 for an empty row, which
never occurs for a well-formed tensor). -/
def jsMax : List ℚ → ℚ
  | [] => 0
  | x :: xs => xs.foldl max x

/-- `scores.indexOf(maxScore)`: the index of the first occurrence of the
row maximum, as computed by `TextRecognizer.decodeOutput`
(src/worker/text-recognizer.ts lines 172-174). -/
def jsArgmax (row : List ℚ) : ℕ := row.indexOf (jsMax row)

/-- The per-position scan of `TextRecognizer.decodeOutput`
(src/worker/text-recognizer.ts lines 171-182): take the arg-max of each
row in order, break on index 0, skip indices below 4 and push
`maxIndex - 1` otherwise.  Breaking returns immediately, so rows after the
first end-of-sequence row are never examined. -/
def collectFromLogits : List (List ℚ) → List ℕ
  | [] => []
  | row :: rest =>
    let m := jsArgmax row
    if m = 0 then []
    else if m < 4 then collectFromLogits rest
    else (m - 1) :: collectFromLogits rest

/-- The emission loop of `TextRecognizer.decodeOutput`
(src/worker/text-recognizer.ts lines 185-192): a character is emitted for
a class id when it differs from the previously emitted id (initialised to
-1) and is a valid index into the character list. -/
def emitChars (cl : List Char) : ℤ → List ℕ → List Char
  | _, [] => []
  | prev, c :: rest =>
    if h : (c : ℤ) ≠ prev ∧ c < cl.length then
      cl.get ⟨c, h.2⟩ :: emitChars cl (c : ℤ) rest
    else emitChars cl prev rest

/-- Characters produced by greedy decoding of a logits tensor given as a
list of `seqLength` rows of `vocabSize` scores. -/
def decodeChars (cl : List Char) (logits : List (List ℚ)) : List Char :=
  emitChars cl (-1) (collectFromLogits logits)

/-- The final recognition text, `resultChars.join('').trim()`. -/
def decodeText (cl : List Char) (logits : List (List ℚ)) : String :=
  (String.mk (decodeChars cl logits)).trim

/-- Claim C2: greedy decoding takes the per-position arg-max in order,
stops at the first position whose arg-max is 0 (so later rows are never
read), skips indices 1, 2, 3 without emitting, maps every other index m to
vocabulary[m - 1], collapses consecutive repeats of the same index before
emitting; in particular an arg-max sequence [5, 5, 0, 99] decodes to the
single character vocabulary[4], the trailing row never being read. -/
theorem c2_greedy_decode (cl : List Char) :
    (∀ row rest, jsArgmax row = 0 → collectFromLogits (row :: rest) = []) ∧
    (∀ row rest m, jsArgmax row = m → 0 < m → m < 4 →
      collectFromLogits (row :: rest) = collectFromLogits rest) ∧
    (∀ row rest m, jsArgmax row = m → 4 ≤ m →
      collectFromLogits (row :: rest) = (m - 1) :: collectFromLogits rest) ∧
    (∀ (prev : ℤ) (c : ℕ) (rest : List ℕ), (c : ℤ) = prev →
      emitChars cl prev (c :: rest) = emitChars cl prev rest) ∧
    (∀ r1 r2 r3 junk, jsArgmax r1 = 5 → jsArgmax r2 = 5 → jsArgmax r3 = 0 →
      ∀ h4 : 4 < cl.length,
      decodeChars cl (r1 :: r2 :: r3 :: junk) = [cl.get ⟨4, h4⟩]) := by
  refine ⟨?_, ?_, ?_, ?_, ?_⟩
  · intro row rest h
    simp [collectFromLogits, h]
  · intro row rest m h h0 h4
    simp only [collectFromLogits, h]
    rw [if_neg (by omega), if_pos h4]
  · intro row rest m h h4
    simp only [collectFromLogits, h]
    rw [if_neg (by omega), if_neg (by omega)]
  · intro prev c rest h
    simp only [emitChars]
    rw [dif_neg fun hc => hc.1 h]
  · intro r1 r2 r3 junk h1 h2 h3 h4
    unfold decodeChars
    simp only [collectFromLogits, h1, h2, h3]
    norm_num [emitChars, h4]

/-- Concrete inputs witnessing `c2_greedy_decode`: rows whose arg-max
sequence is 5, 5, 0, with an arbitrary junk row after the end marker. -/
def vocab2 : List Char := ['a', 'b', 'c', 'd', 'e']

def rowArg5 : List ℚ := [0, 0, 0, 0, 0, 1]

def rowEos : List ℚ := [1, 0, 0, 0, 0, 0]

def rowJunk : List ℚ := [0, 0, 0, 0, 0, 0, 0, 9]

theorem c2_greedy_decode_witness :
    jsArgmax rowArg5 = 5 ∧ jsArgmax rowEos = 0 ∧ 4 < vocab2.length ∧
      decodeChars vocab2 [rowArg5, rowArg5, rowEos, rowJunk] = ['e'] := by
  have h5 : jsArgmax rowArg5 = 5 := by
    norm_num [jsArgmax, jsMax, rowArg5, List.indexOf, List.findIdx, List.findIdx.go,
      max_def, Bool.cond_eq_ite, beq_iff_eq]
  have h0 : jsArgmax rowEos = 0 := by
    norm_num [jsArgmax, jsMax, rowEos, List.indexOf, List.findIdx, List.findIdx.go,
      max_def, Bool.cond_eq_ite, beq_iff_eq]
  have hlen : 4 < vocab2.length := by norm_num [vocab2]
  have hdec := (c2_greedy_decode vocab2).2.2.2.2 rowArg5 rowArg5 rowEos [rowJunk]
    h5 h5 h0 hlen
  exact ⟨h5, h0, hlen, by rw [hdec]; rfl⟩

/-- `MODEL_VERSION` from src/worker/model-loader.ts line 11. -/
def MODEL_VERSION : String := "1.0.0"

/-- An IndexedDB cache entry for one model name
(src/worker/model-loader.ts lines 75-80); bytes are a list of octets. -/
structure CacheEntry where
  version : String
  data : List ℕ

/-- `getModelFromCache` (src/worker/model-loader.ts lines 46-65): the
stored entry is returned only when it exists and its version tag equals
`MODEL_VERSION`; otherwise the lookup resolves to undefined. -/
def getModelFromCache (entry : Option CacheEntry) : Option (List ℕ) :=
  match entry with
  | some e => if e.version = MODEL_VERSION then some e.data else none
  | none => none

/-- `loadModel` (src/worker/model-loader.ts lines 134-157), over the
environment outcomes it depends on: whether the model name is known, the
cache entry stored under that name, the download outcome and the cache
write outcome.  The source awaits `saveModelToCache` with no surrounding
try/catch, so a cache write rejection propagates out of `loadModel`. -/
def loadModel (knownModel : Bool) (entry : Option CacheEntry)
    (download : Except String (List ℕ)) (cacheWrite : Except String Unit) :
    Except String (List ℕ) :=
  if knownModel = false then .error "Unknown model type"
  else
    match getModelFromCache entry with
    | some data => .ok data
    | none =>
      match download with
      | .error e => .error e
      | .ok bytes =>
        match cacheWrite with
        | .error e => .error e
        | .ok _ => .ok bytes

def bytes6 : List ℕ := [1, 2, 3]

/-- Counterexample to claim C6 as stated: with an empty cache, a
successful download and a failing cache write, `loadModel` rejects with
the cache write error instead of returning the downloaded bytes. -/
theorem c6_cache_write_failure_counterexample :
    loadModel true none (.ok bytes6) (.error "cache write failed") =
        .error "cache write failed" ∧
      ∀ b, loadModel true none (.ok bytes6) (.error "cache write failed") ≠ .ok b := by
  refine ⟨rfl, fun b h => ?_⟩
  rw [show loadModel true none (.ok bytes6) (.error "cache write failed") =
    .error "cache write failed" from rfl] at h
  exact Except.noConfusion h

/-- Amended claim C6: if the download of a model succeeds but writing the
downloaded bytes to the persistent cache fails, `loadModel` rejects with
the cache write error and the in-memory downloaded bytes are not
returned — the cache write failure is fatal, not non-fatal. -/
theorem c6_cache_write_failure_is_fatal (entry : Option CacheEntry)
    (bytes : List ℕ) (e : String) (hmiss : getModelFromCache entry = none) :
    loadModel true entry (.ok bytes) (.error e) = .error e ∧
      ∀ b, loadModel true entry (.ok bytes) (.error e) ≠ .ok b := by
  have hload : loadModel true entry (.ok bytes) (.error e) = .error e := by
    unfold loadModel
    rw [if_neg (by simp), hmiss]
  exact ⟨hload, fun b h => Except.noConfusion (hload ▸ h)⟩

theorem c6_cache_write_failure_is_fatal_witness :
    getModelFromCache none = none ∧
      loadModel true none (.ok bytes6) (.error "quota exceeded") =
        .error "quota exceeded" :=
  ⟨rfl, (c6_cache_write_failure_is_fatal none bytes6 "quota exceeded" rfl).1⟩

/-- Claim C7: `loadModel` returns cached bytes exactly when a cache entry
exists under the requested name and its stored version tag equals the
build's `MODEL_VERSION`; an entry stored under any other version is a
cache miss and the model is re-downloaded. -/
theorem c7_cache_version_gate (entry : Option CacheEntry) (d bytes : List ℕ)
    (v : String) (dl : Except String (List ℕ)) (wr : Except String Unit) :
    (getModelFromCache (some ⟨MODEL_VERSION, d⟩) = some d) ∧
      (v ≠ MODEL_VERSION → getModelFromCache (some ⟨v, d⟩) = none) ∧
      (getModelFromCache none = none) ∧
      (getModelFromCache entry = some d → loadModel true entry dl wr = .ok d) ∧
      (getModelFromCache entry = none →
        loadModel true entry (.ok bytes) (.ok ()) = .ok bytes) := by
  refine ⟨by simp [getModelFromCache], ?_, rfl, ?_, ?_⟩
  · intro hv
    simp [getModelFromCache, hv]
  · intro hhit
    unfold loadModel
    rw [if_neg (by simp), hhit]
  · intro hmiss
    unfold loadModel
    rw [if_neg (by simp), hmiss]

theorem c7_cache_version_gate_witness :
    ("0.9.0" : String) ≠ MODEL_VERSION ∧
      getModelFromCache (some ⟨"0.9.0", bytes6⟩) = none ∧
      loadModel true (some ⟨"0.9.0", bytes6⟩) (.ok [7]) (.ok ()) = .ok [7] ∧
      getModelFromCache (some ⟨MODEL_VERSION, bytes6⟩) = some bytes6 ∧
      loadModel true (some ⟨MODEL_VERSION, bytes6⟩) (.ok [7]) (.ok ()) = .ok bytes6 := by
  have hne : ("0.9.0" : String) ≠ MODEL_VERSION := by decide
  have hc := c7_cache_version_gate (some ⟨"0.9.0", bytes6⟩) bytes6 [7] "0.9.0" (.ok [7]) (.ok ())
  have hmiss := hc.2.1 hne
  have hc2 := c7_cache_version_gate (some ⟨MODEL_VERSION, bytes6⟩) bytes6 [7]
    MODEL_VERSION (.ok [7]) (.ok ())
  exact ⟨hne, hmiss, hc.2.2.2.2 hmiss, hc2.1, hc2.2.2.2.1 hc2.1⟩

/-- The three recognizer instances of the cascade
(rec30 = narrow, rec50 = medium, rec100 = wide). -/
inductive RecognizerKind where
  | narrow
  | medium
  | wide
deriving DecidableEq

/-- `selectRecognizer` (src/worker/ocr.worker.ts lines 99-103 and the
identical function in the recognition worker): category 3 routes to the
narrow instance, 2 to the medium instance, everything else to the wide
instance.  The optional JavaScript `charCountCategory` argument is an
`Option`; `undefined === 3` is false. -/
def selectRecognizer (charCountCategory : Option ℚ) : RecognizerKind :=
  if charCountCategory = some 3 then .narrow
  else if charCountCategory = some 2 then .medium
  else .wide

/-- Claim C9: the cascade selector routes charCountCategory 3 to the
narrow (rec30) instance, 2 to the medium (rec50) instance, and every other
value (1, absent, or anything else) to the wide (rec100) instance. -/
theorem c9_cascade_selection :
    selectRecognizer (some 3) = .narrow ∧
      selectRecognizer (some 2) = .medium ∧
      selectRecognizer (some 1) = .wide ∧
      selectRecognizer none = .wide ∧
      ∀ c, c ≠ some 3 → c ≠ some 2 → selectRecognizer c = .wide := by
  refine ⟨rfl, rfl, rfl, rfl, ?_⟩
  intro c h3 h2
  unfold selectRecognizer
  rw [if_neg h3, if_neg h2]

theorem c9_cascade_selection_witness :
    (some (100:ℚ) ≠ some 3) ∧ (some (100:ℚ) ≠ some 2) ∧
      selectRecognizer (some 100) = .wide := by
  have h3 : some (100:ℚ) ≠ some 3 := by norm_num
  have h2 : some (100:ℚ) ≠ some 2 := by norm_num
  exact ⟨h3, h2, c9_cascade_selection.2.2.2.2 (some 100) h3 h2⟩

/-- One worker result `{id, text, confidence}` from a REC_COMPLETE
message (src/types/recognition-worker.ts). -/
structure RecResult where
  id : ℕ
  text : String
  confidence : ℚ
deriving DecidableEq

/-- `chunks[j].push(job)`: append a job to the j-th chunk. -/
def pushJob {α : Type} (chunks : List (List (ℕ × α))) (j : ℕ) (job : ℕ × α) :
    List (List (ℕ × α)) :=
  chunks.set j (chunks.getD j [] ++ [job])

/-- The round-robin partition of `textRegions` into N job lists
(src/hooks/useOCRWorker.ts lines 203-208): region i is pushed onto chunk
`i % N` as a job whose id is i. -/
def mkChunks {α : Type} (N : ℕ) (regions : List α) : List (List (ℕ × α)) :=
  regions.enum.foldl (fun cs p => pushJob cs (p.1 % N) p)
    (List.replicate N [])

/-- A recognition worker processing one REC_PROCESS job list
(recognition worker, REC_PROCESS branch): one result per job, in order,
carrying the job's id.  `g` abstracts `recognizeCropped` on the job
payload (cropped image together with its charCountCategory). -/
def runWorker {α : Type} (g : α → String × ℚ) (jobs : List (ℕ × α)) :
    List RecResult :=
  jobs.map (fun p => ⟨p.1, (g p.2).1, (g p.2).2⟩)

/-- The `Promise.all` slot array: one slot per worker, and each arrival
event `(workerIndex, results)` stores that worker's results in its own
slot, whatever the arrival order. -/
def processArrivals {β : Type} (N : ℕ) (arrivals : List (ℕ × β)) :
    List (Option β) :=
  arrivals.foldl (fun st e => st.set e.1 (some e.2)) (List.replicate N none)

/-- `resultMap.get(i)` for `resultMap = new Map(allResults.map(r => [r.id, r]))`:
for duplicate ids the later insertion wins, hence the search over the
reversed list. -/
def jsMapGet (l : List RecResult) (i : ℕ) : Option RecResult :=
  l.reverse.find? (fun r => r.id = i)

/-- A `TextBlock` of the aggregation step, keeping the originating region
value abstract. -/
structure TextBlockM (α : Type) where
  region : α
  text : String
  readingOrder : ℕ

/-- The aggregation `textRegions.map((region, i) => ({...region,
text: resultMap.get(i)?.text ?? '', readingOrder: i + 1}))`
(src/hooks/useOCRWorker.ts lines 229-235). -/
def aggregateBlocks {α : Type} (regions : List α) (allResults : List RecResult) :
    List (TextBlockM α) :=
  regions.enum.map (fun p =>
    ⟨p.2, ((jsMapGet allResults p.1).map RecResult.text).getD "", p.1 + 1⟩)

/-- `Promise.all` over the dispatch outcomes: resolves with the list of
chunk results when every worker resolves, rejects as soon as any worker
rejects. -/
def promiseAll {ε β : Type} : List (Except ε β) → Except ε (List β)
  | [] => .ok []
  | x :: xs =>
    match x with
    | .error e => .error e
    | .ok v =>
      match promiseAll xs with
      | .error e => .error e
      | .ok vs => .ok (v :: vs)

/-- The recognition phase of `runRecognition` after dispatch: on success
the chunk results are flattened and aggregated into one TextBlock per
region (the `.then` branch); any worker error rejects the whole phase
(the `.catch` branch). -/
def runRecognitionE {α : Type} (regions : List α)
    (outcomes : List (Except String (List RecResult))) :
    Except String (List (TextBlockM α)) :=
  match promiseAll outcomes with
  | .error e => .error e
  | .ok chunkResults => .ok (aggregateBlocks regions chunkResults.flatten)

theorem foldl_pushJob_length {α : Type} (N : ℕ) (l : List (ℕ × α))
    (cs : List (List (ℕ × α))) :
    (l.foldl (fun cs p => pushJob cs (p.1 % N) p) cs).length = cs.length := by
  induction l generalizing cs with
  | nil => rfl
  | cons p l ih =>
    rw [List.foldl_cons, ih]
    simp [pushJob]

theorem length_mkChunks {α : Type} (N : ℕ) (regions : List α) :
    (mkChunks N regions).length = N := by
  unfold mkChunks
  rw [foldl_pushJob_length]
  exact List.length_replicate N []

theorem foldl_pushJob_getD {α : Type} (N : ℕ) (l : List (ℕ × α)) :
    ∀ cs : List (List (ℕ × α)), cs.length = N → ∀ j, j < N →
      (l.foldl (fun cs p => pushJob cs (p.1 % N) p) cs).getD j [] =
        cs.getD j [] ++ l.filter (fun p => p.1 % N = j) := by
  induction l with
  | nil =>
    intro cs _ j _
    simp
  | cons p l ih =>
    intro cs hcs j hj
    rw [List.foldl_cons,
      ih (pushJob cs (p.1 % N) p) (by simp [pushJob, hcs]) j hj,
      List.filter_cons]
    by_cases hpj : p.1 % N = j
    · rw [if_pos (by simpa using hpj)]
      have hstep : (pushJob cs (p.1 % N) p).getD j [] = cs.getD j [] ++ [p] := by
        unfold pushJob
        rw [hpj, List.getD_eq_getElem?_getD, List.getElem?_set_eq (by omega),
          Option.getD_some]
      rw [hstep, List.append_assoc, List.singleton_append]
    · rw [if_neg (by simpa using hpj)]
      have hstep : (pushJob cs (p.1 % N) p).getD j [] = cs.getD j [] := by
        unfold pushJob
        rw [List.getD_eq_getElem?_getD, List.getElem?_set_ne hpj,
          ← List.getD_eq_getElem?_getD]
      rw [hstep]

theorem mkChunks_getD {α : Type} (N : ℕ) (regions : List α) (j : ℕ) (hj : j < N) :
    (mkChunks N regions).getD j [] =
      regions.enum.filter (fun p => p.1 % N = j) := by
  unfold mkChunks
  rw [foldl_pushJob_getD N regions.enum (List.replicate N [])
    (List.length_replicate N []) j hj]
  have hrep : (List.replicate N ([] : List (ℕ × α))).getD j [] = [] := by
    rw [List.getD_eq_getElem?_getD, List.getElem?_replicate]
    split <;> rfl
  rw [hrep, List.nil_append]

/-- Claim C1, dispatch part: region i is assigned to chunk `i % N` as the
job with id i. -/
theorem mem_mkChunks_self {α : Type} (N : ℕ) (hN : 0 < N) (regions : List α)
    (i : ℕ) (h : i < regions.length) :
    (i, regions.get ⟨i, h⟩) ∈ (mkChunks N regions).getD (i % N) [] := by
  rw [mkChunks_getD N regions (i % N) (Nat.mod_lt i hN), List.mem_filter]
  exact ⟨List.mk_mem_enum_iff_get?.mpr (List.get?_eq_get h), by simp⟩

theorem mem_results_flatten {α : Type} (N : ℕ) (regions : List α)
    (g : α → String × ℚ) (r : RecResult)
    (hr : r ∈ ((mkChunks N regions).map (runWorker g)).flatten) :
    ∃ (i : ℕ) (h : i < regions.length),
      r = ⟨i, (g (regions.get ⟨i, h⟩)).1, (g (regions.get ⟨i, h⟩)).2⟩ := by
  rw [List.mem_flatten] at hr
  obtain ⟨lr, hlr, hrin⟩ := hr
  rw [List.mem_map] at hlr
  obtain ⟨chunk, hchunk, rfl⟩ := hlr
  obtain ⟨j, hj⟩ := List.mem_iff_get.mp hchunk
  have hjlt : j.1 < N := by
    have hlen := j.2
    have hlen2 := length_mkChunks N regions
    omega
  have hchunk_eq : chunk = regions.enum.filter (fun p => p.1 % N = j.1) := by
    rw [← hj, ← mkChunks_getD N regions j.1 hjlt, List.getD_eq_getElem?_getD,
      List.getElem?_eq_getElem j.2]
    rfl
  subst hchunk_eq
  unfold runWorker at hrin
  rw [List.mem_map] at hrin
  obtain ⟨p, hp, rfl⟩ := hrin
  rw [List.mem_filter] at hp
  have hpe := List.mem_enum_iff_get?.mp hp.1
  rw [List.get?_eq_some] at hpe
  obtain ⟨hlt, hget⟩ := hpe
  exact ⟨p.1, hlt, by rw [hget]⟩

theorem canonical_mem_flatten {α : Type} (N : ℕ) (hN : 0 < N) (regions : List α)
    (g : α → String × ℚ) (i : ℕ) (h : i < regions.length) :
    (⟨i, (g (regions.get ⟨i, h⟩)).1, (g (regions.get ⟨i, h⟩)).2⟩ : RecResult) ∈
      ((mkChunks N regions).map (runWorker g)).flatten := by
  rw [List.mem_flatten]
  refine ⟨runWorker g ((mkChunks N regions).getD (i % N) []), ?_, ?_⟩
  · rw [List.mem_map]
    refine ⟨(mkChunks N regions).getD (i % N) [], ?_, rfl⟩
    have hjlt : i % N < (mkChunks N regions).length := by
      rw [length_mkChunks]
      exact Nat.mod_lt i hN
    rw [List.getD_eq_getElem?_getD, List.getElem?_eq_getElem hjlt]
    exact List.getElem_mem hjlt
  · unfold runWorker
    rw [List.mem_map]
    exact ⟨(i, regions.get ⟨i, h⟩), mem_mkChunks_self N hN regions i h, rfl⟩

theorem jsMapGet_canonical {α : Type} (N : ℕ) (hN : 0 < N) (regions : List α)
    (g : α → String × ℚ) (i : ℕ) (h : i < regions.length) :
    jsMapGet ((mkChunks N regions).map (runWorker g)).flatten i =
      some ⟨i, (g (regions.get ⟨i, h⟩)).1, (g (regions.get ⟨i, h⟩)).2⟩ := by
  unfold jsMapGet
  have hmem : (⟨i, (g (regions.get ⟨i, h⟩)).1, (g (regions.get ⟨i, h⟩)).2⟩ : RecResult) ∈
      ((mkChunks N regions).map (runWorker g)).flatten.reverse :=
    List.mem_reverse.mpr (canonical_mem_flatten N hN regions g i h)
  have hsome : (((mkChunks N regions).map (runWorker g)).flatten.reverse.find?
      (fun r => r.id = i)).isSome :=
    List.find?_isSome.mpr ⟨_, hmem, by simp⟩
  obtain ⟨r2, hr2⟩ := Option.isSome_iff_exists.mp hsome
  rw [hr2]
  have hid : r2.id = i := by
    have := List.find?_some hr2
    simpa using this
  have hrmem := List.mem_reverse.mp (List.mem_of_find?_eq_some hr2)
  obtain ⟨i2, h2, hreq⟩ := mem_results_flatten N regions g r2 hrmem
  have hi2 : i2 = i := by
    rw [hreq] at hid
    exact hid
  subst hi2
  rw [hreq]

theorem foldl_set_length {β : Type} (l : List (ℕ × β)) (st : List (Option β)) :
    (l.foldl (fun st e => st.set e.1 (some e.2)) st).length = st.length := by
  induction l generalizing st with
  | nil => rfl
  | cons e l ih =>
    rw [List.foldl_cons, ih]
    exact List.length_set st e.1 (some e.2)

theorem foldl_set_not_mem {β : Type} (l : List (ℕ × β)) (st : List (Option β))
    (j : ℕ) (hj : ∀ v, (j, v) ∉ l) :
    (l.foldl (fun st e => st.set e.1 (some e.2)) st)[j]? = st[j]? := by
  induction l generalizing st with
  | nil => rfl
  | cons e l ih =>
    rw [List.foldl_cons, ih _ fun v hv => hj v (List.mem_cons_of_mem _ hv)]
    have hne : e.1 ≠ j := by
      intro he
      exact hj e.2 (by rw [← he]; exact List.mem_cons_self _ _)
    exact List.getElem?_set_ne hne

theorem foldl_set_unique {β : Type} (l : List (ℕ × β)) :
    ∀ (st : List (Option β)) (j : ℕ) (v : β), (j, v) ∈ l →
      (∀ w, (j, w) ∈ l → w = v) → j < st.length →
      (l.foldl (fun st e => st.set e.1 (some e.2)) st)[j]? = some (some v) := by
  induction l with
  | nil =>
    intro st j v hmem _ _
    exact absurd hmem (List.not_mem_nil _)
  | cons e l ih =>
    intro st j v hmem huniq hlt
    rw [List.foldl_cons]
    by_cases hl : ∃ w, (j, w) ∈ l
    · obtain ⟨w, hw⟩ := hl
      have hwv := huniq w (List.mem_cons_of_mem _ hw)
      subst hwv
      exact ih _ j w hw (fun w2 hw2 => huniq w2 (List.mem_cons_of_mem _ hw2))
        (by rw [List.length_set]; exact hlt)
    · push_neg at hl
      have he : e = (j, v) := by
        rcases List.mem_cons.mp hmem with h1 | h1
        · exact h1.symm
        · exact absurd h1 (hl v)
      subst he
      rw [foldl_set_not_mem l _ j hl]
      exact List.getElem?_set_eq hlt

/-- Claim C1, completion-order independence: whatever the order in which
the per-worker REC_COMPLETE events arrive, the Promise.all slot array ends
up holding worker j's results in slot j. -/
theorem processArrivals_perm {β : Type} (N : ℕ) (results : List β)
    (hlen : results.length = N) (arrivals : List (ℕ × β))
    (hperm : arrivals.Perm results.enum) :
    processArrivals N arrivals = results.map some := by
  apply List.ext_getElem?_iff.mpr
  intro j
  by_cases hj : j < N
  · have hjr : j < results.length := by omega
    have hmem : (j, results.get ⟨j, hjr⟩) ∈ arrivals :=
      hperm.mem_iff.mpr (List.mk_mem_enum_iff_get?.mpr (List.get?_eq_get hjr))
    have huniq : ∀ w, (j, w) ∈ arrivals → w = results.get ⟨j, hjr⟩ := by
      intro w hw
      have hw2 := List.mem_enum_iff_get?.mp (hperm.mem_iff.mp hw)
      rw [List.get?_eq_get hjr] at hw2
      exact (Option.some.inj hw2).symm
    unfold processArrivals
    rw [foldl_set_unique arrivals _ j _ hmem huniq
      (by rw [List.length_replicate]; exact hj)]
    rw [List.getElem?_map, List.getElem?_eq_getElem hjr]
    rfl
  · have h1 : (processArrivals N arrivals).length = N := by
      unfold processArrivals
      rw [foldl_set_length, List.length_replicate]
    rw [List.getElem?_eq_none (by omega),
      List.getElem?_eq_none (by rw [List.length_map]; omega)]

theorem aggregateBlocks_length {α : Type} (regions : List α)
    (rs : List RecResult) :
    (aggregateBlocks regions rs).length = regions.length := by
  unfold aggregateBlocks
  rw [List.length_map, List.enum_length]

theorem aggregateBlocks_getElem {α : Type} (regions : List α)
    (rs : List RecResult) (i : ℕ) (h : i < regions.length)
    (h2 : i < (aggregateBlocks regions rs).length) :
    (aggregateBlocks regions rs)[i] =
      ⟨regions.get ⟨i, h⟩, ((jsMapGet rs i).map RecResult.text).getD "", i + 1⟩ := by
  unfold aggregateBlocks
  rw [List.getElem_map]
  rw [List.getElem_enum]
  rfl

theorem jsMapGet_eq_none {rs : List RecResult} {i : ℕ}
    (hnone : ∀ r ∈ rs, r.id ≠ i) : jsMapGet rs i = none := by
  unfold jsMapGet
  rw [List.find?_eq_none]
  intro x hx
  simp only [decide_eq_true_eq]
  exact hnone x (List.mem_reverse.mp hx)

/-- Claim C1: for every region list and worker count N ≥ 1 the fan-out
assigns region i to worker i mod N with job id i; the Promise.all slot
array is independent of the completion order; the aggregated output has
exactly one TextBlock per input region in input order, block i carrying
region i, reading order i + 1 and the text of the worker result whose id
is i; and when no result with id i exists the text is the empty string. -/
theorem c1_worker_pool_fanout_aggregation {α : Type} (regions : List α)
    (N : ℕ) (hN : 1 ≤ N) (g : α → String × ℚ)
    (arrivals : List (ℕ × List RecResult))
    (hperm : arrivals.Perm ((mkChunks N regions).map (runWorker g)).enum) :
    (∀ (i : ℕ) (h : i < regions.length),
      (i, regions.get ⟨i, h⟩) ∈ (mkChunks N regions).getD (i % N) []) ∧
    processArrivals N arrivals =
      ((mkChunks N regions).map (runWorker g)).map some ∧
    (aggregateBlocks regions
        (((mkChunks N regions).map (runWorker g)).flatten)).length =
      regions.length ∧
    (∀ (i : ℕ) (h : i < regions.length)
        (h2 : i < (aggregateBlocks regions
          (((mkChunks N regions).map (runWorker g)).flatten)).length),
      (aggregateBlocks regions
          (((mkChunks N regions).map (runWorker g)).flatten)).get ⟨i, h2⟩ =
        ⟨regions.get ⟨i, h⟩, (g (regions.get ⟨i, h⟩)).1, i + 1⟩) ∧
    (∀ (rs : List RecResult) (i : ℕ)
        (h2 : i < (aggregateBlocks regions rs).length),
      (∀ r ∈ rs, r.id ≠ i) →
        ((aggregateBlocks regions rs).get ⟨i, h2⟩).text = "") := by
  have hN0 : 0 < N := hN
  refine ⟨fun i h => mem_mkChunks_self N hN0 regions i h, ?_, ?_, ?_, ?_⟩
  · refine processArrivals_perm N _ ?_ arrivals hperm
    rw [List.length_map, length_mkChunks]
  · exact aggregateBlocks_length regions _
  · intro i h h2
    rw [List.get_eq_getElem, aggregateBlocks_getElem regions _ i h h2,
      jsMapGet_canonical N hN0 regions g i h]
    rfl
  · intro rs i h2 hnone
    have h : i < regions.length := by
      rw [aggregateBlocks_length] at h2
      exact h2
    rw [List.get_eq_getElem, aggregateBlocks_getElem regions rs i h h2,
      jsMapGet_eq_none hnone]
    rfl

/-- Concrete worker-pool run witnessing `c1_worker_pool_fanout_aggregation`:
three regions, two workers, and the second worker completing first. -/
def regionsW : List String := ["x", "y", "z"]

def gW : String → String × ℚ := fun s => (s ++ "!", 1)

def resultsW : List (List RecResult) := (mkChunks 2 regionsW).map (runWorker gW)

def arrivalsW : List (ℕ × List RecResult) :=
  [(1, [⟨1, "y!", 1⟩]), (0, [⟨0, "x!", 1⟩, ⟨2, "z!", 1⟩])]

theorem c1_worker_pool_fanout_aggregation_witness :
    (1 ≤ 2 ∧ arrivalsW.Perm resultsW.enum) ∧
      processArrivals 2 arrivalsW = resultsW.map some ∧
      (aggregateBlocks regionsW resultsW.flatten).length = 3 ∧
      (aggregateBlocks regionsW resultsW.flatten).get ⟨1, by
        rw [aggregateBlocks_length]; norm_num [regionsW]⟩ =
        ⟨"y", "y!", 2⟩ := by
  have hres : resultsW.enum =
      [(0, [⟨0, "x!", 1⟩, ⟨2, "z!", 1⟩]), (1, [⟨1, "y!", 1⟩])] := rfl
  have hperm : arrivalsW.Perm resultsW.enum := by
    rw [hres]
    exact List.Perm.swap _ _ _
  have hc := c1_worker_pool_fanout_aggregation regionsW 2 (by norm_num) gW
    arrivalsW hperm
  have hlen1 : (1:ℕ) < regionsW.length := by norm_num [regionsW]
  have hlen2 : (1:ℕ) < (aggregateBlocks regionsW
      (((mkChunks 2 regionsW).map (runWorker gW)).flatten)).length := by
    rw [aggregateBlocks_length]
    exact hlen1
  refine ⟨⟨by norm_num, hperm⟩, hc.2.1, ?_, ?_⟩
  · rw [show resultsW.flatten = ((mkChunks 2 regionsW).map (runWorker gW)).flatten from rfl]
    rw [hc.2.2.1]
    norm_num [regionsW]
  · have h4 := hc.2.2.2.1 1 hlen1 hlen2
    exact h4

theorem promiseAll_error {ε β : Type} (outcomes : List (Except ε β)) (e : ε)
    (hmem : Except.error e ∈ outcomes)
    (huniq : ∀ e2, Except.error e2 ∈ outcomes → e2 = e) :
    promiseAll outcomes = .error e := by
  induction outcomes with
  | nil => exact absurd hmem (List.not_mem_nil _)
  | cons x xs ih =>
    cases x with
    | error e2 =>
      have he2 : e2 = e := huniq e2 (List.mem_cons_self _ _)
      subst he2
      rfl
    | ok v =>
      have hmem2 : Except.error e ∈ xs := by
        rcases List.mem_cons.mp hmem with h1 | h1
        · exact absurd h1 (by simp)
        · exact h1
      have hxs := ih hmem2 fun e2 he2 => huniq e2 (List.mem_cons_of_mem _ he2)
      simp [promiseAll, hxs]

theorem promiseAll_error_of_mem {ε β : Type} (outcomes : List (Except ε β))
    (e : ε) (hmem : Except.error e ∈ outcomes) :
    ∃ e2, promiseAll outcomes = .error e2 ∧ Except.error e2 ∈ outcomes := by
  induction outcomes with
  | nil => exact absurd hmem (List.not_mem_nil _)
  | cons x xs ih =>
    cases x with
    | error e2 => exact ⟨e2, rfl, List.mem_cons_self _ _⟩
    | ok v =>
      have hmem2 : Except.error e ∈ xs := by
        rcases List.mem_cons.mp hmem with h1 | h1
        · exact absurd h1 (by simp)
        · exact h1
      obtain ⟨e2, he2, hin⟩ := ih hmem2
      exact ⟨e2, by simp [promiseAll, he2], List.mem_cons_of_mem _ hin⟩

/-- Claim C8: if any recognition worker replies with REC_ERROR, the page's
recognition phase rejects (with the reported error when it is the only
one), and no completed result is ever produced — results already returned
by other workers are discarded rather than partially emitted. -/
theorem c8_rec_error_fail_fast {α : Type} (regions : List α)
    (outcomes : List (Except String (List RecResult))) (e : String)
    (hmem : Except.error e ∈ outcomes) :
    (∀ blocks, runRecognitionE regions outcomes ≠ .ok blocks) ∧
      (∃ e2, runRecognitionE regions outcomes = .error e2 ∧
        Except.error e2 ∈ outcomes) ∧
      ((∀ e2, Except.error e2 ∈ outcomes → e2 = e) →
        runRecognitionE regions outcomes = .error e) := by
  obtain ⟨e2, he2, hin⟩ := promiseAll_error_of_mem outcomes e hmem
  have herr : runRecognitionE regions outcomes = .error e2 := by
    unfold runRecognitionE
    rw [he2]
  refine ⟨fun blocks hb => Except.noConfusion (herr ▸ hb), ⟨e2, herr, hin⟩, ?_⟩
  intro huniq
  have hpa := promiseAll_error outcomes e hmem huniq
  unfold runRecognitionE
  rw [hpa]

def regions8 : List String := ["x", "y"]

def outcomes8 : List (Except String (List RecResult)) :=
  [.ok [⟨0, "t", 1⟩], .error "model crashed"]

theorem c8_rec_error_fail_fast_witness :
    (Except.error "model crashed" ∈ outcomes8) ∧
      runRecognitionE regions8 outcomes8 = .error "model crashed" ∧
      ∀ blocks, runRecognitionE regions8 outcomes8 ≠ .ok blocks := by
  have hmem : Except.error "model crashed" ∈ outcomes8 := by
    simp [outcomes8]
  have huniq : ∀ e2, Except.error e2 ∈ outcomes8 → e2 = "model crashed" := by
    intro e2 he2
    simp [outcomes8] at he2
    exact he2
  have hc := c8_rec_error_fail_fast regions8 outcomes8 "model crashed" hmem
  exact ⟨hmem, hc.2.2 huniq, hc.1⟩

end NDLOCRLiteWeb
